import Mathlib

/-!
Verification development for the github-org-analyzer repository.

The TypeScript sources under `src/lib/github.ts` and
`src/app/api/analyze/route.ts` are shallowly embedded below: pure
functions become Lean functions, the paging `while` loops become
recursive functions on the page counter, remote calls are mediated by an
explicit `OctokitBehavior` record of responses, and the concurrent batch
scheduler becomes a pure function of the inputs plus an explicit schedule
describing the interleaving of progress emissions.
-/

/-! ## Character-level string utilities

These model the JavaScript string operations used by `extractOrgName`
(`trim`, `replace(/\/+$/, "")`, `startsWith`, `String.prototype.includes`,
`split("/")`).  They are written over `List Char` so that concrete
instances reduce by `decide`. -/

/-- Does the character list `s` start with the character list `p`? -/
def charsStartWith : List Char → List Char → Bool
  | _, [] => true
  | [], _ :: _ => false
  | a :: as, b :: bs => a == b && charsStartWith as bs

/-- Model of JavaScript `s.startsWith(p)`. -/
def strStarts (s p : String) : Bool := charsStartWith s.toList p.toList

/-- Does `hay` contain `needle` as a contiguous substring (at any position)? -/
def containsAux (needle : List Char) : List Char → Bool
  | [] => charsStartWith [] needle
  | c :: rest => charsStartWith (c :: rest) needle || containsAux needle rest

/-- Model of JavaScript `hay.includes(needle)`. -/
def strContains (hay needle : String) : Bool := containsAux needle.toList hay.toList

/-- Model of JavaScript `String.prototype.trim` (strip leading and trailing
whitespace). -/
def trimChars (s : String) : String :=
  String.mk (((s.toList.dropWhile Char.isWhitespace).reverse.dropWhile Char.isWhitespace).reverse)

/-- Model of `url.replace(/\/+$/, "")`: strip all trailing slashes. -/
def dropTrailingSlashes (s : String) : String :=
  String.mk ((s.toList.reverse.dropWhile (fun c => c == '/')).reverse)

/-- ASCII-lowercase a string, as the WHATWG URL parser does to schemes and
hosts. -/
def lowerStr (s : String) : String := String.mk (s.toList.map Char.toLower)

/-- Split a character list at every occurrence of `sep`, keeping empty
segments, as JavaScript `s.split(sep)` does. -/
def splitCharsOn (sep : Char) : List Char → List (List Char)
  | [] => [[]]
  | c :: rest =>
    let r := splitCharsOn sep rest
    if c == sep then [] :: r
    else
      match r with
      | [] => [[c]]
      | g :: gs => (c :: g) :: gs

/-- Model of JavaScript `s.split("/")`. -/
def splitOnSlash (s : String) : List String := (splitCharsOn '/' s.toList).map String.mk

/-! ## A model of the WHATWG URL parser (`new URL`)

Only the fragment of the parser that `extractOrgName` observes is
modelled: scheme recognition, the authority (userinfo / host / port)
split, host lowercasing, the empty-host failure for special schemes, and
the pathname.  Percent-decoding, IDNA host mapping, the removal of
embedded tab/newline characters, IPv6 host brackets and the `file` scheme's
empty-host allowance are not modelled; no theorem below exercises them. -/

structure URLParts where
  hostname : String
  pathname : String
deriving DecidableEq

/-- Characters allowed in a URL scheme after the first letter. -/
def isSchemeChar (c : Char) : Bool := c.isAlphanum || c == '+' || c == '-' || c == '.'

/-- Consume scheme characters until a `':'`; fail on any other character or
on end of input (a string with no valid scheme is a relative URL, and
`new URL` without a base throws on those). -/
def takeSchemeAux : List Char → List Char → Option (String × List Char)
  | [], _ => none
  | c :: rest, acc =>
    if c == ':' then some (String.mk acc.reverse, rest)
    else if isSchemeChar c then takeSchemeAux rest (c :: acc) else none

/-- Split off the scheme of a URL string: it must start with a letter and
reach a `':'` through scheme characters only. -/
def splitScheme (cs : List Char) : Option (String × List Char) :=
  match cs with
  | [] => none
  | c :: _ => if c.isAlpha then takeSchemeAux cs [] else none

/-- The WHATWG special schemes (uniform treatment; the `file` scheme's
special host rules are not needed by any theorem). -/
def specialScheme (s : String) : Bool :=
  s == "http" || s == "https" || s == "ws" || s == "wss" || s == "ftp" || s == "file"

/-- Drop the userinfo part of an authority: everything up to the last `'@'`. -/
def afterLastAt (cs : List Char) : List Char :=
  (cs.reverse.takeWhile (fun c => c != '@')).reverse

/-- Split a host-port chunk at the first `':'` into host and optional port. -/
def splitFirstColon : List Char → List Char × Option (List Char)
  | [] => ([], none)
  | c :: rest =>
    if c == ':' then ([], some rest)
    else
      let r := splitFirstColon rest
      (c :: r.1, r.2)

/-- A port is valid when it consists of digits only (it may be empty). -/
def validPort (cs : List Char) : Bool := cs.all Char.isDigit

/-- Characters terminating the authority section. -/
def isAuthorityDelim (special : Bool) (c : Char) : Bool :=
  c == '/' || c == '?' || c == '#' || (special && c == '\\')

/-- Parse the authority section: returns the (lowercased) hostname and the
remaining input starting at the path.  Fails on an invalid port, and on an
empty host when the scheme is special. -/
def parseAuthority (special : Bool) (cs : List Char) : Option (String × List Char) :=
  let auth := cs.takeWhile (fun c => !(isAuthorityDelim special c))
  let rest := cs.dropWhile (fun c => !(isAuthorityDelim special c))
  let hp := splitFirstColon (afterLastAt auth)
  let portOk := match hp.2 with | none => true | some p => validPort p
  if !portOk then none
  else if special && hp.1 == [] then none
  else some (lowerStr (String.mk hp.1), rest)

/-- Parse the path section (the remaining input after the authority). -/
def parsePath (special : Bool) (rest : List Char) : String :=
  match rest with
  | [] => if special then "/" else ""
  | c :: _ =>
    if c == '?' || c == '#' then (if special then "/" else "")
    else
      let p := rest.takeWhile (fun ch => ch != '?' && ch != '#')
      String.mk (if special then p.map (fun ch => if ch == '\\' then '/' else ch) else p)

/-- Model of `new URL(s)`: `none` models the constructor throwing. -/
def parseURL (s : String) : Option URLParts :=
  match splitScheme s.toList with
  | none => none
  | some sr =>
    let scheme := lowerStr sr.1
    if specialScheme scheme then
      let afterSlashes := sr.2.dropWhile (fun c => c == '/' || c == '\\')
      match parseAuthority true afterSlashes with
      | none => none
      | some hr => some { hostname := hr.1, pathname := parsePath true hr.2 }
    else
      match sr.2 with
      | '/' :: '/' :: r =>
        match parseAuthority false r with
        | none => none
        | some hr => some { hostname := hr.1, pathname := parsePath false hr.2 }
      | _ =>
        some { hostname := "",
               pathname := String.mk (sr.2.takeWhile (fun ch => ch != '?' && ch != '#')) }

/-! ## OrgResolver (`extractOrgName`, src/lib/github.ts lines 7-19) -/

/-- Embedding of `extractOrgName` from `src/lib/github.ts`.  The source
trims, strips trailing slashes, prepends `https://` when the cleaned string
does not start with `"http"`, parses with `new URL`, requires the hostname
to contain `"github.com"`, and returns the first non-empty path segment
(`parts[0] || null`).  A parse failure is caught and yields `null`. -/
def extractOrgName (url : String) : Option String :=
  let cleaned := dropTrailingSlashes (trimChars url)
  let candidate := if strStarts cleaned "http" then cleaned else "https://" ++ cleaned
  match parseURL candidate with
  | none => none
  | some u =>
    if strContains u.hostname "github.com" then
      match (splitOnSlash u.pathname).filter (fun seg => seg != "") with
      | [] => none
      | p :: _ => some p
    else none

/-- Modelled from the spec: the algorithm of §4.2 exactly as the claim
words it — "if the string lacks a scheme, assume `https://`" — i.e. the
`https://` prefix is added precisely when the cleaned string has no URL
scheme, rather than when it does not start with `"http"`.  Everything
else matches the source. -/
def extractOrgClaim (url : String) : Option String :=
  let cleaned := dropTrailingSlashes (trimChars url)
  let candidate := if (splitScheme cleaned.toList).isSome then cleaned else "https://" ++ cleaned
  match parseURL candidate with
  | none => none
  | some u =>
    if strContains u.hostname "github.com" then
      match (splitOnSlash u.pathname).filter (fun seg => seg != "") with
      | [] => none
      | p :: _ => some p
    else none

/-- The amended algorithm: as `extractOrgClaim`, but the `https://` scheme
is assumed exactly when the cleaned string does not start with the literal
characters `"http"` (which is what the source tests), not when it lacks a
scheme. -/
def extractOrgAmended (url : String) : Option String :=
  let cleaned := dropTrailingSlashes (trimChars url)
  let candidate := if strStarts cleaned "http" then cleaned else "https://" ++ cleaned
  match parseURL candidate with
  | none => none
  | some u =>
    if strContains u.hostname "github.com" then
      match (splitOnSlash u.pathname).filter (fun seg => seg != "") with
      | [] => none
      | p :: _ => some p
    else none

/-! ## Data model (src/lib/types.ts) -/

structure CompanyInput where
  company_name : String
  github_org_url : String
deriving DecidableEq

structure RepoCommitData where
  repoName : String
  repoUrl : String
  commitCount : Nat
deriving DecidableEq

structure CompanyResult where
  company_name : String
  github_org_url : String
  most_active_repo : String
  most_active_repo_url : String
  commit_count : Nat
  top_contributor : String
  error : Option String
deriving DecidableEq

inductive EventType where
  | progress | result | error | done
deriving DecidableEq

structure ProgressEvent where
  type : EventType
  company : Option String
  message : String
  result : Option CompanyResult
  completed : Option Nat
  total : Option Nat
deriving DecidableEq

/-! ## The remote environment

A commit as observed by the analyzer: `authorLogin` models
`commit.author?.login` and `commitAuthorName` models
`commit.commit?.author?.name` (either may be absent or empty). -/

structure Commit where
  authorLogin : Option String
  commitAuthorName : Option String
deriving DecidableEq

structure RepoListItem where
  name : String
  html_url : String
  fork : Bool
deriving DecidableEq

/-- The remote API's responses for one batch run.  `listReposResult org`
is the outcome of `listOrgRepos` for that org (the organization/user
fallback of lines 54-91 of github.ts is folded into this single response;
no claim concerns its internals), with `Except.error` modelling a
propagated exception.  `listCommits owner repo` is the full list of
commits since the cutoff; the paging loops read 100-element slices of it,
and `Except.error` models every page call for that repository failing. -/
structure OctokitBehavior where
  listReposResult : String → Except String (List RepoListItem)
  listCommits : String → String → Except String (List Commit)

/-- The throttled client: the bearer token plus the remote behaviour.
The retry policy of `createOctokit` only affects logging and whether an
error is surfaced, which the behaviour record already determines. -/
structure Octokit where
  auth : String
  behavior : OctokitBehavior

/-- Embedding of `createOctokit(token)` (src/lib/github.ts lines 21-44):
it stores the token as the client's credential. -/
def createOctokit (token : String) (beh : OctokitBehavior) : Octokit :=
  { auth := token, behavior := beh }

/-- One page of the commit listing: `per_page: 100, page: n` returns the
`n`-th 100-element slice (pages are 1-indexed). -/
def pageSlice (commits : List Commit) (page : Nat) : List Commit :=
  (commits.drop ((page - 1) * 100)).take 100

/-! ## CommitCounter (`getRepoCommitCount`, src/lib/github.ts lines 94-120) -/

def MAX_COMMITS : Nat := 500

/-- The `while (count < MAX_COMMITS)` loop of `getRepoCommitCount`.  The
second component instruments the loop with the number of page fetches
performed; the first component is the translated `count`. -/
def getRepoCommitCountLoop (commits : List Commit) (count page fetched : Nat) : Nat × Nat :=
  if count < MAX_COMMITS then
    let data := pageSlice commits page
    if data.length = 0 then (count, fetched + 1)
    else if data.length < 100 then (count + data.length, fetched + 1)
    else getRepoCommitCountLoop commits (count + data.length) (page + 1) (fetched + 1)
  else (count, fetched)
termination_by MAX_COMMITS - count
decreasing_by
  rename_i hguard _hz hlt
  unfold data at hlt
  simp only [MAX_COMMITS] at hguard ⊢
  omega

/-- The commit count computed from the repository's commit list:
`Math.min(count, MAX_COMMITS)` after the paging loop. -/
def getRepoCommitCountFromList (commits : List Commit) : Nat :=
  min (getRepoCommitCountLoop commits 0 1 0).1 MAX_COMMITS

/-- Number of page fetches the loop performs. -/
def pagesFetched (commits : List Commit) : Nat :=
  (getRepoCommitCountLoop commits 0 1 0).2

/-- Embedding of `getRepoCommitCount`: a failing commit listing propagates
as an exception, otherwise the paging loop runs over the commit list. -/
def getRepoCommitCount (ok : Octokit) (owner repo : String) : Except String Nat :=
  match ok.behavior.listCommits owner repo with
  | Except.error e => Except.error e
  | Except.ok l => Except.ok (getRepoCommitCountFromList l)

/-! ## ContributorResolver (`getTopContributor`, src/lib/github.ts lines 122-165) -/

/-- The author key of a commit:
`commit.author?.login || commit.commit?.author?.name || "unknown"` with
JavaScript falsy semantics (absent or empty falls through). -/
def jsOrStr (a : Option String) (b : String) : String :=
  match a with
  | some s => if s = "" then b else s
  | none => b

def authorKey (c : Commit) : String :=
  jsOrStr c.authorLogin (jsOrStr c.commitAuthorName "unknown")

/-- `authorCounts.set(login, (authorCounts.get(login) || 0) + 1)` on a
JavaScript `Map` represented as an insertion-ordered association list:
an existing key keeps its position, a new key is appended. -/
def bump : List (String × Nat) → String → List (String × Nat)
  | [], k => [(k, 1)]
  | (a, c) :: rest, k =>
    if a = k then (a, c + 1) :: rest else (a, c) :: bump rest k

def MAX_PAGES : Nat := 5

/-- The `while (page <= MAX_PAGES)` tallying loop of `getTopContributor`. -/
def getTopContributorLoop (commits : List Commit) (m : List (String × Nat)) (page : Nat) :
    List (String × Nat) :=
  if page ≤ MAX_PAGES then
    let data := pageSlice commits page
    if data.length = 0 then m
    else
      let m2 := data.foldl (fun acc c => bump acc (authorKey c)) m
      if data.length < 100 then m2 else getTopContributorLoop commits m2 (page + 1)
  else m
termination_by MAX_PAGES + 1 - page
decreasing_by
  rename_i hguard _hz _hlt
  simp only [MAX_PAGES] at hguard ⊢
  omega

/-- The selection loop over the tally: start from `("N/A", 0)` and take a
new pair only on a strictly greater count. -/
def pickTop : List (String × Nat) → String × Nat → String × Nat
  | [], acc => acc
  | p :: rest, acc => pickTop rest (if p.2 > acc.2 then p else acc)

/-- The top contributor computed from the repository's commit list. -/
def topContribFromList (commits : List Commit) : String :=
  let authorCounts := getTopContributorLoop commits [] 1
  if authorCounts = [] then "N/A"
  else (pickTop authorCounts ("N/A", 0)).1

/-- Embedding of `getTopContributor`: it has no try/catch, so a failing
commit listing propagates. -/
def getTopContributor (ok : Octokit) (owner repo : String) : Except String String :=
  match ok.behavior.listCommits owner repo with
  | Except.error e => Except.error e
  | Except.ok l => Except.ok (topContribFromList l)

/-- The 100-commit pages the count loop reads, concatenated; used to
state the sampling lemmas. -/
def sampledAuthors (commits : List Commit) : List String :=
  (commits.take 500).map authorKey

/-- First-seen order of a list of author keys: the order in which distinct
keys first occur, which is exactly the insertion order of the tally map. -/
def firstSeenStep (acc : List String) (a : String) : List String :=
  if a ∈ acc then acc else acc ++ [a]

def firstSeen (s : List String) : List String := s.foldl firstSeenStep []

/-! ## CompanyAnalysisPipeline (`analyzeCompany`, src/lib/github.ts lines 167-281) -/

/-- The outcome of one pipeline run: a returned `CompanyResult`, a
propagated exception with its message, or the `TypeError` that
`Array.prototype.reduce` raises on an empty array with no initial value. -/
inductive AnalyzeOutcome where
  | ok (r : CompanyResult)
  | thrown (msg : String)
  | emptyReduceFault
deriving DecidableEq

/-- A `CompanyResult` whose activity fields carry the `"N/A"` sentinels. -/
def sentinelResult (c : CompanyInput) (err : Option String) : CompanyResult :=
  { company_name := c.company_name
    github_org_url := c.github_org_url
    most_active_repo := "N/A"
    most_active_repo_url := "N/A"
    commit_count := 0
    top_contributor := "N/A"
    error := err }

/-- The per-repository counting step (the `Promise.all(repos.map(...))` of
lines 205-223): a failed count is caught and substituted with 0 for that
repository only. -/
def computeRepoResults (ok : Octokit) (orgName : String) (repos : List RepoListItem) :
    List RepoCommitData :=
  repos.map (fun repo =>
    match getRepoCommitCount ok orgName repo.name with
    | Except.ok c => { repoName := repo.name, repoUrl := repo.html_url, commitCount := c }
    | Except.error _ => { repoName := repo.name, repoUrl := repo.html_url, commitCount := 0 })

/-- The winner reduction
`repoResults.reduce((best, current) => current.commitCount > best.commitCount ? current : best)`:
a left-to-right scan seeded with the first element, updating on strict `>`. -/
def reduceMostActive (best : RepoCommitData) : List RepoCommitData → RepoCommitData
  | [] => best
  | current :: rest =>
    reduceMostActive (if current.commitCount > best.commitCount then current else best) rest

/-- Embedding of `analyzeCompany`.  The first component collects the
messages passed to `onProgress`, in order; the second is the outcome. -/
def analyzeCompany (ok : Octokit) (company : CompanyInput) : List String × AnalyzeOutcome :=
  match extractOrgName company.github_org_url with
  | none => ([], AnalyzeOutcome.ok (sentinelResult company (some "Invalid GitHub URL")))
  | some orgName =>
    let m1 := s!"Fetching repos for {orgName}..."
    match ok.behavior.listReposResult orgName with
    | Except.error e => ([m1], AnalyzeOutcome.thrown e)
    | Except.ok repos =>
      if repos.length = 0 then
        ([m1], AnalyzeOutcome.ok (sentinelResult company (some "No repos found")))
      else
        let m2 := s!"Found {repos.length} repos for {orgName}, counting commits..."
        match computeRepoResults ok orgName repos with
        | [] => ([m1, m2], AnalyzeOutcome.emptyReduceFault)
        | b :: rest =>
          let mostActive := reduceMostActive b rest
          if mostActive.commitCount = 0 then
            ([m1, m2], AnalyzeOutcome.ok (sentinelResult company none))
          else
            let m3 := s!"Most active: {mostActive.repoName} ({mostActive.commitCount} commits). Finding top contributor..."
            match getTopContributor ok orgName mostActive.repoName with
            | Except.error e => ([m1, m2, m3], AnalyzeOutcome.thrown e)
            | Except.ok tc =>
              ([m1, m2, m3],
               AnalyzeOutcome.ok
                 { company_name := company.company_name
                   github_org_url := company.github_org_url
                   most_active_repo := mostActive.repoName
                   most_active_repo_url := mostActive.repoUrl
                   commit_count := mostActive.commitCount
                   top_contributor := tc
                   error := none })

/-! ## BatchScheduler and ProgressStream
(`processCompanies`, src/app/api/analyze/route.ts lines 44-137)

The scheduler slices the input into windows of `BATCH_SIZE = 5`, runs the
five pipelines of a window concurrently, waits for `Promise.allSettled` —
whose result array is in input order — and then walks that array emitting
one terminal event per entry while incrementing `completed`.

Concurrency within a window only affects the interleaving of the
`progress` events the five tasks emit while running; each window of the
`Schedule` below fixes that interleaving (`progressOrder`) together with
the real-time order in which the window's entries settle (`settleOrder`).
The settle order is genuine non-determinism of the program, but — as the
theorems show — no emitted event depends on it. -/

structure WindowSched where
  progressOrder : List Nat
  settleOrder : List Nat

/-- Interleave the per-task progress sequences of one window: each index
in `order` pops the front of that task's remaining sequence; whatever
remains afterwards is flushed in task order.  Every interleaving that
preserves per-task order is `interleave order seqs` for some `order`. -/
def interleave (order : List Nat) (seqs : List (List ProgressEvent)) : List ProgressEvent :=
  match order with
  | [] => seqs.flatten
  | i :: rest =>
    match seqs.getD i [] with
    | [] => interleave rest seqs
    | e :: tail => e :: interleave rest (seqs.set i tail)

/-- The progress events one task emits: the scheduler's own
`Analyzing X...` event, then one event per `onProgress` callback, each
carrying the `completed` value captured before the window's settle loop. -/
def taskProgressEvents (c : CompanyInput) (msgs : List String) (completed total : Nat) :
    List ProgressEvent :=
  { type := EventType.progress
    company := some c.company_name
    message := s!"Analyzing {c.company_name}..."
    result := none
    completed := some completed
    total := some total } ::
  msgs.map (fun m =>
    { type := EventType.progress
      company := some c.company_name
      message := s!"[{c.company_name}] {m}"
      result := none
      completed := some completed
      total := some total })

/-- The error message the settle loop reads from a rejected task. -/
def outcomeErrMsg : AnalyzeOutcome → String
  | AnalyzeOutcome.thrown m => m
  | AnalyzeOutcome.emptyReduceFault => "Reduce of empty array with no initial value"
  | AnalyzeOutcome.ok _ => ""

/-- The terminal event the settle loop emits for one entry (lines 85-122):
a fulfilled result becomes a `result` or `error` event depending on
`result.error`; a rejection becomes an `error` event with a synthesized
result built from the batch entry at the same position. -/
def terminalEvent (c : CompanyInput) (out : AnalyzeOutcome) (completedVal total : Nat) :
    ProgressEvent :=
  match out with
  | AnalyzeOutcome.ok r =>
    { type := if r.error.isSome then EventType.error else EventType.result
      company := some r.company_name
      message :=
        match r.error with
        | some e => s!"{r.company_name}: {e}"
        | none => s!"{r.company_name}: {r.most_active_repo} ({r.commit_count} commits)"
      result := some r
      completed := some completedVal
      total := some total }
  | out =>
    { type := EventType.error
      company := some c.company_name
      message := s!"{c.company_name}: {outcomeErrMsg out}"
      result := some (sentinelResult c (some (outcomeErrMsg out)))
      completed := some completedVal
      total := some total }

/-- The settle loop of one window: one terminal event per entry, in the
order of the settled-results array (input order), `completed` incremented
once per entry. -/
def windowTerminals : List (CompanyInput × (List String × AnalyzeOutcome)) → Nat → Nat →
    List ProgressEvent
  | [], _, _ => []
  | p :: rest, completed, total =>
    terminalEvent p.1 p.2.2 (completed + 1) total :: windowTerminals rest (completed + 1) total

/-- All events of one window: the interleaved progress events of its
tasks (all carrying the pre-window `completed`), then the terminal
events. -/
def windowEvents (ok : Octokit) (batch : List CompanyInput) (completed total : Nat)
    (ws : WindowSched) : List ProgressEvent :=
  let analyzed := batch.map (fun c => (c, analyzeCompany ok c))
  interleave ws.progressOrder
      (analyzed.map (fun p => taskProgressEvents p.1 p.2.1 completed total))
    ++ windowTerminals analyzed completed total

/-- The `for (let i = 0; i < companies.length; i += BATCH_SIZE)` slicing,
with `BATCH_SIZE = 5`. -/
def chunk5 : List CompanyInput → List (List CompanyInput)
  | [] => []
  | a :: b :: c :: d :: e :: rest => [a, b, c, d, e] :: chunk5 rest
  | l => [l]

/-- The sequential loop over windows. -/
def runWindows (ok : Octokit) (total : Nat) (sched : Nat → WindowSched) :
    List (List CompanyInput) → Nat → Nat → List ProgressEvent
  | [], _, _ => []
  | batch :: rest, completed, w =>
    windowEvents ok batch completed total (sched w)
      ++ runWindows ok total sched rest (completed + batch.length) (w + 1)

/-- The final `done` event (lines 124-129). -/
def doneEvent (total : Nat) : ProgressEvent :=
  { type := EventType.done
    company := none
    message := s!"Finished analyzing {total} companies"
    result := none
    completed := some total
    total := some total }

/-- Embedding of `processCompanies`: the full event stream the route
writes for one request, as a function of the token, the remote behaviour,
the submitted companies and the schedule. -/
def processCompanies (token : String) (beh : OctokitBehavior) (companies : List CompanyInput)
    (sched : Nat → WindowSched) : List ProgressEvent :=
  let octokit := createOctokit token beh
  runWindows octokit companies.length sched (chunk5 companies) 0 0
    ++ [doneEvent companies.length]

/-- The terminal event each company is expected to produce, indexed by its
overall position: used to state the ordering theorems. -/
def expectedTerminals (ok : Octokit) (total : Nat) : List CompanyInput → Nat → List ProgressEvent
  | [], _ => []
  | c :: rest, completed =>
    terminalEvent c (analyzeCompany ok c).2 (completed + 1) total ::
      expectedTerminals ok total rest (completed + 1)

/-- Is this a terminal (`result` or `error`) event? -/
def isTerm (e : ProgressEvent) : Bool :=
  decide (e.type = EventType.result) || decide (e.type = EventType.error)

/-- Is this a `done` event? -/
def isDoneEv (e : ProgressEvent) : Bool := decide (e.type = EventType.done)

/-- The `completed` payload of an event (every event the route emits
carries one). -/
def completedOf (e : ProgressEvent) : Nat := e.completed.getD 0

/-- The claimed settlement-order permutation: the companies of a window's
entries listed in the order the entries settle. -/
def settlePermuted (settleOrder : List Nat) (l : List (Option String)) : List (Option String) :=
  settleOrder.map (fun i => l.getD i none)

/-! ## Theorems about OrgResolver (claim C6) -/

/-- C6 (amended part): `extractOrgName` implements the amended algorithm —
trim whitespace and trailing slashes, assume `https://` exactly when the
cleaned string does not start with `"http"`, parse as a URL, return `none`
when parsing fails or the host does not contain `github.com`, otherwise
return the first non-empty path segment (`none` when there is none). -/
theorem extractOrg_eq_amended : ∀ s, extractOrgName s = extractOrgAmended s := fun _ => rfl

/-- C6 (counterexample): on `"httpfoo.github.com/acme"` — a string that
lacks a scheme but starts with the characters `"http"` — the source
parses the string as-is and fails (returning `none`), whereas the claim's
algorithm ("assume `https://` when the string lacks a scheme") would
produce `some "acme"`.  The claim as stated is therefore false. -/
theorem claim_C6_counterexample :
    extractOrgName "httpfoo.github.com/acme" = none ∧
    extractOrgClaim "httpfoo.github.com/acme" = some "acme" ∧
    extractOrgName "httpfoo.github.com/acme" ≠ extractOrgClaim "httpfoo.github.com/acme" := by
  refine ⟨by decide, by decide, by decide⟩

/-! ## Theorems about the scheduler's token use (claim C9) -/

theorem analyzeCompany_auth (t1 t2 : String) (beh : OctokitBehavior) (c : CompanyInput) :
    analyzeCompany ⟨t1, beh⟩ c = analyzeCompany ⟨t2, beh⟩ c := rfl

theorem windowEvents_auth (t1 t2 : String) (beh : OctokitBehavior) (batch : List CompanyInput)
    (c0 tot : Nat) (ws : WindowSched) :
    windowEvents ⟨t1, beh⟩ batch c0 tot ws = windowEvents ⟨t2, beh⟩ batch c0 tot ws := by
  simp only [windowEvents, analyzeCompany_auth t1 t2]

theorem runWindows_auth (t1 t2 : String) (beh : OctokitBehavior) (tot : Nat)
    (sched : Nat → WindowSched) :
    ∀ (chunks : List (List CompanyInput)) (c0 w : Nat),
      runWindows ⟨t1, beh⟩ tot sched chunks c0 w = runWindows ⟨t2, beh⟩ tot sched chunks c0 w := by
  intro chunks
  induction chunks with
  | nil => intro c0 w; rfl
  | cons b rest ih =>
    intro c0 w
    simp only [runWindows, windowEvents_auth t1 t2, ih]

/-- C9: the bearer token influences no event content.  Two runs that
differ only in the token value, against identical remote responses and
with the same schedule, produce identical event streams; in particular no
field of any emitted `ProgressEvent` carries the token. -/
theorem claim_C9 (t1 t2 : String) (beh : OctokitBehavior) (cs : List CompanyInput)
    (sched : Nat → WindowSched) :
    processCompanies t1 beh cs sched = processCompanies t2 beh cs sched := by
  simp only [processCompanies, createOctokit, runWindows_auth t1 t2]

/-! ## Theorem about the winner reduction's totality (claim C10) -/

/-- C10: the `reduce`-without-initial-value fault branch is unreachable:
whenever the reduction is reached the repository list is non-empty
(the empty-discovery case returned `"No repos found"` earlier), so
`analyzeCompany` never produces the empty-reduce `TypeError`. -/
theorem claim_C10 (ok : Octokit) (c : CompanyInput) :
    (analyzeCompany ok c).2 ≠ AnalyzeOutcome.emptyReduceFault := by
  unfold analyzeCompany
  split
  · simp
  · split
    · simp
    · split
      · simp
      · split
        · rename_i heq
          exfalso
          simp only [computeRepoResults, List.map_eq_nil_iff] at heq
          simp_all
        · dsimp only
          split
          · simp
          · split <;> simp

/-- C10 (witness): the fault-freedom theorem applied at a concrete client
and company. -/
theorem claim_C10_witness :
    (analyzeCompany ⟨"tok", ⟨fun _ => Except.ok [], fun _ _ => Except.ok []⟩⟩
        ⟨"Acme", "https://github.com/acme"⟩).2 ≠ AnalyzeOutcome.emptyReduceFault :=
  claim_C10 ⟨"tok", ⟨fun _ => Except.ok [], fun _ _ => Except.ok []⟩⟩
    ⟨"Acme", "https://github.com/acme"⟩

/-! ## Theorems about CommitCounter (claim C3) -/

theorem countLoop_unfold (commits : List Commit) (count page fetched : Nat) :
    getRepoCommitCountLoop commits count page fetched =
      if count < MAX_COMMITS then
        if (pageSlice commits page).length = 0 then (count, fetched + 1)
        else if (pageSlice commits page).length < 100 then
          (count + (pageSlice commits page).length, fetched + 1)
        else getRepoCommitCountLoop commits (count + (pageSlice commits page).length)
          (page + 1) (fetched + 1)
      else (count, fetched) := by
  rw [getRepoCommitCountLoop]

theorem getRepoCommitCountLoop_closed (commits : List Commit) :
    ∀ g k, k + g = 5 → 100 * k ≤ commits.length →
      getRepoCommitCountLoop commits (100 * k) (k + 1) k =
        (min commits.length 500, min 5 (commits.length / 100 + 1)) := by
  intro g
  induction g with
  | zero =>
    intro k hk hle
    have hk5 : k = 5 := by omega
    subst hk5
    rw [countLoop_unfold]
    rw [if_neg (by simp only [MAX_COMMITS]; omega)]
    simp only [Prod.mk.injEq]
    constructor <;> omega
  | succ g ih =>
    intro k hk hle
    have hklt : 100 * k < MAX_COMMITS := by simp only [MAX_COMMITS]; omega
    have hlen : (pageSlice commits (k + 1)).length = min 100 (commits.length - 100 * k) := by
      simp only [pageSlice, List.length_take, List.length_drop, Nat.add_sub_cancel]
      omega
    rw [countLoop_unfold, if_pos hklt]
    by_cases hA : commits.length - 100 * k = 0
    · rw [if_pos (by omega : (pageSlice commits (k + 1)).length = 0)]
      simp only [Prod.mk.injEq]
      constructor <;> omega
    · by_cases hB : commits.length - 100 * k < 100
      · rw [if_neg (by omega : ¬ (pageSlice commits (k + 1)).length = 0)]
        rw [if_pos (by omega : (pageSlice commits (k + 1)).length < 100)]
        rw [hlen]
        simp only [Prod.mk.injEq]
        constructor <;> omega
      · rw [if_neg (by omega : ¬ (pageSlice commits (k + 1)).length = 0)]
        rw [if_neg (by omega : ¬ (pageSlice commits (k + 1)).length < 100)]
        rw [(by omega : (pageSlice commits (k + 1)).length = 100)]
        rw [(by ring : 100 * k + 100 = 100 * (k + 1))]
        exact ih (k + 1) (by omega) (by omega)

/-- C3: for every repository commit list, `getRepoCommitCount` returns
`min(total, 500)`, its result is bounded by the cap `MAX_COMMITS = 500`,
and paging stops as soon as a short page is returned or the cap is hit:
the loop fetches exactly `min 5 (total / 100 + 1)` pages — one page per
100 accumulated commits plus the terminating short or empty page, never
more than the 5 pages at which the running total reaches the cap. -/
theorem claim_C3 (commits : List Commit) :
    getRepoCommitCountFromList commits = min commits.length 500 ∧
    getRepoCommitCountFromList commits ≤ 500 ∧
    pagesFetched commits = min 5 (commits.length / 100 + 1) := by
  have h := getRepoCommitCountLoop_closed commits 5 0 (by omega) (by omega)
  simp only [Nat.mul_zero, Nat.zero_add] at h
  refine ⟨?_, ?_, ?_⟩
  · simp only [getRepoCommitCountFromList, h, MAX_COMMITS]
    omega
  · simp only [getRepoCommitCountFromList, h, MAX_COMMITS]
    omega
  · simp only [pagesFetched, h]

theorem reduceMostActive_spec : ∀ (l : List RepoCommitData) (b : RepoCommitData),
    ∃ i : Nat, (b :: l)[i]? = some (reduceMostActive b l) ∧
      (∀ x ∈ b :: l, x.commitCount ≤ (reduceMostActive b l).commitCount) ∧
      (∀ j : Nat, j < i → ∀ q : RepoCommitData, (b :: l)[j]? = some q →
        q.commitCount < (reduceMostActive b l).commitCount) := by
  intro l
  induction l with
  | nil =>
    intro b
    refine ⟨0, by simp [reduceMostActive], ?_, ?_⟩
    · intro x hx
      simp at hx
      simp [hx, reduceMostActive]
    · intro j hj
      omega
  | cons x rest ih =>
    intro b
    by_cases hx : x.commitCount > b.commitCount
    · have hred : reduceMostActive b (x :: rest) = reduceMostActive x rest := by
        simp [reduceMostActive, hx]
      obtain ⟨i2, h1, h2, h3⟩ := ih x
      rw [hred]
      cases i2 with
      | zero =>
        simp only [List.getElem?_cons_zero, Option.some.injEq] at h1
        refine ⟨1, ?_, ?_, ?_⟩
        · simp [← h1]
        · intro y hy
          rcases List.mem_cons.mp hy with hyb | hyt
          · subst hyb
            have := h2 x (List.mem_cons_self x rest)
            omega
          · exact h2 y hyt
        · intro j hj q hq
          have hj0 : j = 0 := by omega
          subst hj0
          simp only [List.getElem?_cons_zero, Option.some.injEq] at hq
          subst hq
          rw [← h1]
          omega
      | succ j2 =>
        simp only [List.getElem?_cons_succ] at h1
        have hx2 : x.commitCount < (reduceMostActive x rest).commitCount :=
          h3 0 (by omega) x (by simp)
        refine ⟨j2 + 2, ?_, ?_, ?_⟩
        · simpa using h1
        · intro y hy
          rcases List.mem_cons.mp hy with hyb | hyt
          · subst hyb
            omega
          · exact h2 y hyt
        · intro j hj q hq
          rcases j with _ | (_ | j3)
          · simp only [List.getElem?_cons_zero, Option.some.injEq] at hq
            subst hq
            omega
          · simp only [List.getElem?_cons_succ, List.getElem?_cons_zero,
              Option.some.injEq] at hq
            subst hq
            exact hx2
          · simp only [List.getElem?_cons_succ] at hq
            exact h3 (j3 + 1) (by omega) q (by simpa using hq)
    · have hred : reduceMostActive b (x :: rest) = reduceMostActive b rest := by
        simp [reduceMostActive, hx]
      obtain ⟨i2, h1, h2, h3⟩ := ih b
      rw [hred]
      cases i2 with
      | zero =>
        simp only [List.getElem?_cons_zero, Option.some.injEq] at h1
        refine ⟨0, by simp [← h1], ?_, ?_⟩
        · intro y hy
          rcases List.mem_cons.mp hy with hyb | hyt
          · subst hyb
            exact h2 y (List.mem_cons_self y rest)
          · rcases List.mem_cons.mp hyt with hyx | hyr
            · subst hyx
              have := h2 b (List.mem_cons_self b rest)
              omega
            · exact h2 y (List.mem_cons.mpr (Or.inr hyr))
        · intro j hj
          omega
      | succ j2 =>
        simp only [List.getElem?_cons_succ] at h1
        have hb2 : b.commitCount < (reduceMostActive b rest).commitCount :=
          h3 0 (by omega) b (by simp)
        refine ⟨j2 + 2, ?_, ?_, ?_⟩
        · simpa using h1
        · intro y hy
          rcases List.mem_cons.mp hy with hyb | hyt
          · subst hyb
            exact h2 y (List.mem_cons_self y rest)
          · rcases List.mem_cons.mp hyt with hyx | hyr
            · subst hyx
              omega
            · exact h2 y (List.mem_cons.mpr (Or.inr hyr))
        · intro j hj q hq
          rcases j with _ | (_ | j3)
          · simp only [List.getElem?_cons_zero, Option.some.injEq] at hq
            subst hq
            exact hb2
          · simp only [List.getElem?_cons_succ, List.getElem?_cons_zero,
              Option.some.injEq] at hq
            subst hq
            omega
          · simp only [List.getElem?_cons_succ] at hq
            exact h3 (j3 + 1) (by omega) q (by simpa using hq)

theorem analyzeCompany_zero_winner (ok : Octokit) (c : CompanyInput) (org : String)
    (repos : List RepoListItem) (b : RepoCommitData) (l : List RepoCommitData)
    (h1 : extractOrgName c.github_org_url = some org)
    (h2 : ok.behavior.listReposResult org = Except.ok repos)
    (h3 : computeRepoResults ok org repos = b :: l)
    (h4 : (reduceMostActive b l).commitCount = 0) :
    (analyzeCompany ok c).2 = AnalyzeOutcome.ok (sentinelResult c none) := by
  have hrep : ¬ repos.length = 0 := by
    intro h
    rw [List.length_eq_zero] at h
    rw [h] at h3
    simp [computeRepoResults] at h3
  simp [analyzeCompany, h1, h2, h3, h4, hrep]

/-- C2: (a) the winner reduction selects the repository with the strictly
highest commit count, ties keeping the earliest-encountered candidate —
the result occurs at some index `i` of the scanned list, no element
exceeds it, and every element before index `i` is strictly smaller; and
(b) when the winner's count is 0 the returned `CompanyResult` is the
all-sentinel result with `commit_count = 0` and no `error` set. -/
theorem claim_C2 :
    (∀ (b : RepoCommitData) (l : List RepoCommitData),
      ∃ i : Nat, (b :: l)[i]? = some (reduceMostActive b l) ∧
        (∀ x ∈ b :: l, x.commitCount ≤ (reduceMostActive b l).commitCount) ∧
        (∀ j : Nat, j < i → ∀ q : RepoCommitData, (b :: l)[j]? = some q →
          q.commitCount < (reduceMostActive b l).commitCount)) ∧
    (∀ (ok : Octokit) (c : CompanyInput) (org : String) (repos : List RepoListItem)
      (b : RepoCommitData) (l : List RepoCommitData),
      extractOrgName c.github_org_url = some org →
      ok.behavior.listReposResult org = Except.ok repos →
      computeRepoResults ok org repos = b :: l →
      (reduceMostActive b l).commitCount = 0 →
      (analyzeCompany ok c).2 = AnalyzeOutcome.ok (sentinelResult c none) ∧
      (sentinelResult c none).error = none ∧
      (sentinelResult c none).most_active_repo = "N/A" ∧
      (sentinelResult c none).most_active_repo_url = "N/A" ∧
      (sentinelResult c none).top_contributor = "N/A" ∧
      (sentinelResult c none).commit_count = 0) := by
  refine ⟨fun b l => reduceMostActive_spec l b, ?_⟩
  intro ok c org repos b l h1 h2 h3 h4
  exact ⟨analyzeCompany_zero_winner ok c org repos b l h1 h2 h3 h4, rfl, rfl, rfl, rfl, rfl⟩

def repoA : RepoCommitData := ⟨"alpha", "ua", 3⟩

def repoB : RepoCommitData := ⟨"beta", "ub", 3⟩

def behZero : OctokitBehavior :=
  ⟨fun _ => Except.ok [⟨"r", "u", false⟩], fun _ _ => Except.ok []⟩

def companyAcme : CompanyInput := ⟨"Acme", "https://github.com/acme"⟩

/-- C2 (witness): the theorem applied at a two-way tie (the earlier
candidate wins) and at a concrete environment whose single repository has
zero commits. -/
theorem claim_C2_witness :
    (∃ i : Nat, (repoA :: [repoB])[i]? = some (reduceMostActive repoA [repoB]) ∧
      (∀ x ∈ repoA :: [repoB], x.commitCount ≤ (reduceMostActive repoA [repoB]).commitCount) ∧
      (∀ j : Nat, j < i → ∀ q : RepoCommitData, (repoA :: [repoB])[j]? = some q →
        q.commitCount < (reduceMostActive repoA [repoB]).commitCount)) ∧
    (analyzeCompany ⟨"tok", behZero⟩ companyAcme).2 =
      AnalyzeOutcome.ok (sentinelResult companyAcme none) :=
  ⟨claim_C2.1 repoA [repoB],
   (claim_C2.2 ⟨"tok", behZero⟩ companyAcme "acme" [⟨"r", "u", false⟩] ⟨"r", "u", 0⟩ []
      (by decide) rfl
      (by simp [computeRepoResults, getRepoCommitCount, getRepoCommitCountFromList,
            countLoop_unfold, pageSlice, MAX_COMMITS, behZero])
      (by decide)).1⟩

theorem computeRepoResults_mem_ok (ok : Octokit) (org : String) (repos : List RepoListItem)
    (repo : RepoListItem) (hrepo : repo ∈ repos) (L : List Commit)
    (hL : ok.behavior.listCommits org repo.name = Except.ok L) :
    (⟨repo.name, repo.html_url, getRepoCommitCountFromList L⟩ : RepoCommitData) ∈
      computeRepoResults ok org repos := by
  unfold computeRepoResults
  have h := List.mem_map_of_mem (fun repo =>
    match getRepoCommitCount ok org repo.name with
    | Except.ok c => ({ repoName := repo.name, repoUrl := repo.html_url, commitCount := c } : RepoCommitData)
    | Except.error _ => { repoName := repo.name, repoUrl := repo.html_url, commitCount := 0 }) hrepo
  simpa [getRepoCommitCount, hL] using h

theorem computeRepoResults_mem_err (ok : Octokit) (org : String) (repos : List RepoListItem)
    (repo : RepoListItem) (hrepo : repo ∈ repos) (em : String)
    (hL : ok.behavior.listCommits org repo.name = Except.error em) :
    (⟨repo.name, repo.html_url, 0⟩ : RepoCommitData) ∈ computeRepoResults ok org repos := by
  unfold computeRepoResults
  have h := List.mem_map_of_mem (fun repo =>
    match getRepoCommitCount ok org repo.name with
    | Except.ok c => ({ repoName := repo.name, repoUrl := repo.html_url, commitCount := c } : RepoCommitData)
    | Except.error _ => { repoName := repo.name, repoUrl := repo.html_url, commitCount := 0 }) hrepo
  simpa [getRepoCommitCount, hL] using h

theorem analyzeCompany_no_error (ok : Octokit) (c : CompanyInput) (org : String)
    (repos : List RepoListItem) (rname em : String)
    (h1 : extractOrgName c.github_org_url = some org)
    (h2 : ok.behavior.listReposResult org = Except.ok repos)
    (h3 : repos ≠ [])
    (hfail : ok.behavior.listCommits org rname = Except.error em)
    (hok : ∀ repo ∈ repos, repo.name ≠ rname →
      ∃ L, ok.behavior.listCommits org repo.name = Except.ok L) :
    ∃ res, (analyzeCompany ok c).2 = AnalyzeOutcome.ok res ∧ res.error = none := by
  obtain ⟨r0, rs, rfl⟩ := List.exists_cons_of_ne_nil h3
  obtain ⟨b, l, hbl⟩ : ∃ b l, computeRepoResults ok org (r0 :: rs) = b :: l := by
    simp only [computeRepoResults, List.map_cons]
    exact ⟨_, _, rfl⟩
  by_cases hcc : (reduceMostActive b l).commitCount = 0
  · exact ⟨sentinelResult c none,
      analyzeCompany_zero_winner ok c org (r0 :: rs) b l h1 h2 hbl hcc, rfl⟩
  · obtain ⟨i, hw1, _, _⟩ := reduceMostActive_spec l b
    have hwmem : reduceMostActive b l ∈ b :: l := List.getElem?_mem hw1
    rw [← hbl] at hwmem
    unfold computeRepoResults at hwmem
    obtain ⟨repo, hrepo, hfr⟩ := List.mem_map.mp hwmem
    by_cases hr : repo.name = rname
    · exfalso
      rw [hr] at hfr
      simp only [getRepoCommitCount, hfail] at hfr
      rw [← hfr] at hcc
      simp at hcc
    · obtain ⟨L, hL⟩ := hok repo hrepo hr
      simp only [getRepoCommitCount, hL] at hfr
      have hname : (reduceMostActive b l).repoName = repo.name := by rw [← hfr]
      have hrep0 : ¬ (r0 :: rs).length = 0 := by simp
      refine Exists.intro (CompanyResult.mk c.company_name c.github_org_url
        (reduceMostActive b l).repoName (reduceMostActive b l).repoUrl
        (reduceMostActive b l).commitCount (topContribFromList L) none) (And.intro ?_ rfl)
      simp only [analyzeCompany, h1, h2, hrep0, if_false, hbl, hcc, if_neg hcc,
        getTopContributor, hname, hL]

/-- C5: a failing commit-count call for one repository is degraded to a
count of 0 for that repository only.  Every other repository of the same
company still receives its true (capped) count, the company's analysis is
not aborted, and the returned `CompanyResult` carries no `error`. -/
theorem claim_C5 (ok : Octokit) (c : CompanyInput) (org : String) (repos : List RepoListItem)
    (rname em : String)
    (h1 : extractOrgName c.github_org_url = some org)
    (h2 : ok.behavior.listReposResult org = Except.ok repos)
    (h3 : repos ≠ [])
    (hfail : ok.behavior.listCommits org rname = Except.error em)
    (hok : ∀ repo ∈ repos, repo.name ≠ rname →
      ∃ L, ok.behavior.listCommits org repo.name = Except.ok L) :
    (∀ repo ∈ repos, repo.name ≠ rname →
      ∀ L, ok.behavior.listCommits org repo.name = Except.ok L →
      (⟨repo.name, repo.html_url, getRepoCommitCountFromList L⟩ : RepoCommitData) ∈
        computeRepoResults ok org repos) ∧
    (∀ repo ∈ repos, repo.name = rname →
      (⟨repo.name, repo.html_url, 0⟩ : RepoCommitData) ∈ computeRepoResults ok org repos) ∧
    (∃ res, (analyzeCompany ok c).2 = AnalyzeOutcome.ok res ∧ res.error = none) := by
  refine ⟨?_, ?_, ?_⟩
  · intro repo hrepo _ L hL
    exact computeRepoResults_mem_ok ok org repos repo hrepo L hL
  · intro repo hrepo hr
    refine computeRepoResults_mem_err ok org repos repo hrepo em ?_
    rw [hr]
    exact hfail
  · exact analyzeCompany_no_error ok c org repos rname em h1 h2 h3 hfail hok

def behFail : OctokitBehavior :=
  ⟨fun _ => Except.ok [⟨"r1", "u1", false⟩, ⟨"r2", "u2", false⟩],
   fun _ r => if r = "r1" then Except.error "boom" else Except.ok [⟨some "A", none⟩]⟩

/-- C5 (witness): the isolation theorem applied at a concrete environment
in which repository `r1`'s commit listing fails while `r2`'s succeeds. -/
theorem claim_C5_witness :
    (∀ repo ∈ ([⟨"r1", "u1", false⟩, ⟨"r2", "u2", false⟩] : List RepoListItem),
      repo.name ≠ "r1" →
      ∀ L, behFail.listCommits "acme" repo.name = Except.ok L →
      (⟨repo.name, repo.html_url, getRepoCommitCountFromList L⟩ : RepoCommitData) ∈
        computeRepoResults ⟨"tok", behFail⟩ "acme"
          [⟨"r1", "u1", false⟩, ⟨"r2", "u2", false⟩]) ∧
    (∀ repo ∈ ([⟨"r1", "u1", false⟩, ⟨"r2", "u2", false⟩] : List RepoListItem),
      repo.name = "r1" →
      (⟨repo.name, repo.html_url, 0⟩ : RepoCommitData) ∈
        computeRepoResults ⟨"tok", behFail⟩ "acme"
          [⟨"r1", "u1", false⟩, ⟨"r2", "u2", false⟩]) ∧
    (∃ res, (analyzeCompany ⟨"tok", behFail⟩ companyAcme).2 = AnalyzeOutcome.ok res ∧
      res.error = none) :=
  claim_C5 ⟨"tok", behFail⟩ companyAcme "acme" [⟨"r1", "u1", false⟩, ⟨"r2", "u2", false⟩]
    "r1" "boom" (by decide) rfl (by simp) (by simp [behFail])
    (by
      intro repo hmem hne
      simp only [List.mem_cons, List.not_mem_nil, or_false] at hmem
      rcases hmem with h | h
      · subst h
        simp at hne
      · subst h
        exact ⟨[⟨some "A", none⟩], by simp [behFail]⟩)

def tallyFoldC (m : List (String × Nat)) (cs : List Commit) : List (String × Nat) :=
  cs.foldl (fun acc c => bump acc (authorKey c)) m

def tallyFoldK (m : List (String × Nat)) (ks : List String) : List (String × Nat) :=
  ks.foldl bump m

theorem tallyLoop_unfold (commits : List Commit) (m : List (String × Nat)) (page : Nat) :
    getTopContributorLoop commits m page =
      if page ≤ MAX_PAGES then
        if (pageSlice commits page).length = 0 then m
        else
          if (pageSlice commits page).length < 100 then tallyFoldC m (pageSlice commits page)
          else getTopContributorLoop commits (tallyFoldC m (pageSlice commits page)) (page + 1)
      else m := by
  rw [getTopContributorLoop]
  rfl

theorem tallyLoop_closed (commits : List Commit) :
    ∀ g k, k + g = 5 → ∀ m,
      getTopContributorLoop commits m (k + 1) =
        tallyFoldC m ((commits.drop (100 * k)).take (100 * g)) := by
  intro g
  induction g with
  | zero =>
    intro k hk m
    rw [tallyLoop_unfold]
    rw [if_neg (by simp only [MAX_PAGES]; omega)]
    simp [tallyFoldC]
  | succ g ih =>
    intro k hk m
    have hpage : k + 1 ≤ MAX_PAGES := by simp only [MAX_PAGES]; omega
    have hps : pageSlice commits (k + 1) = (commits.drop (100 * k)).take 100 := by
      simp only [pageSlice, Nat.add_sub_cancel]
      rw [(by ring : (k * 100) = 100 * k)]
    rw [tallyLoop_unfold, if_pos hpage]
    by_cases hA : (pageSlice commits (k + 1)).length = 0
    · rw [if_pos hA]
      have hdrop : commits.drop (100 * k) = [] := by
        rw [hps] at hA
        rw [List.length_eq_zero] at hA
        rw [List.take_eq_nil_iff] at hA
        simpa using hA
      rw [hdrop]
      simp [tallyFoldC]
    · rw [if_neg hA]
      by_cases hB : (pageSlice commits (k + 1)).length < 100
      · rw [if_pos hB]
        have hshort : (commits.drop (100 * k)).length < 100 := by
          rw [hps] at hB
          simp only [List.length_take] at hB
          omega
        have htake : (commits.drop (100 * k)).take (100 * (g + 1)) = commits.drop (100 * k) := by
          apply List.take_of_length_le
          omega
        have htake2 : (commits.drop (100 * k)).take 100 = commits.drop (100 * k) := by
          apply List.take_of_length_le
          omega
        rw [htake, hps, htake2]
      · rw [if_neg hB]
        rw [ih (k + 1) (by omega)]
        rw [hps]
        have hsplit : (commits.drop (100 * k)).take (100 * (g + 1)) =
            (commits.drop (100 * k)).take 100 ++
              ((commits.drop (100 * k)).drop 100).take (100 * g) := by
          rw [← List.take_add]
          rw [(by ring : 100 + 100 * g = 100 * (g + 1))]
        rw [hsplit]
        rw [List.drop_drop]
        rw [(by ring : 100 * k + 100 = 100 * (k + 1))]
        simp only [tallyFoldC, List.foldl_append]

theorem tallyLoop_take500 (commits : List Commit) :
    getTopContributorLoop commits [] 1 = tallyFoldC [] (commits.take 500) := by
  have h := tallyLoop_closed commits 5 0 (by omega) []
  simpa using h

theorem firstSeenStep_mem (acc : List String) (a x : String) :
    x ∈ firstSeenStep acc a ↔ x ∈ acc ∨ x = a := by
  unfold firstSeenStep
  split
  · rename_i h
    constructor
    · exact Or.inl
    · rintro (hx | rfl)
      · exact hx
      · exact h
  · simp [List.mem_append]

theorem foldl_firstSeenStep_mem (s : List String) :
    ∀ acc x, x ∈ s.foldl firstSeenStep acc ↔ x ∈ acc ∨ x ∈ s := by
  induction s with
  | nil => intro acc x; simp
  | cons a rest ih =>
    intro acc x
    rw [List.foldl_cons, ih, firstSeenStep_mem]
    simp [or_assoc]

theorem foldl_firstSeenStep_nodup (s : List String) :
    ∀ acc : List String, acc.Nodup → (s.foldl firstSeenStep acc).Nodup := by
  induction s with
  | nil => intro acc h; exact h
  | cons a rest ih =>
    intro acc h
    rw [List.foldl_cons]
    apply ih
    unfold firstSeenStep
    split
    · exact h
    · rename_i ha
      rw [List.nodup_append]
      exact ⟨h, List.nodup_singleton a, by simpa using ha⟩

theorem mem_firstSeen (s : List String) (x : String) : x ∈ firstSeen s ↔ x ∈ s := by
  simpa [firstSeen] using foldl_firstSeenStep_mem s [] x

theorem firstSeen_nodup (s : List String) : (firstSeen s).Nodup :=
  foldl_firstSeenStep_nodup s [] (by simp)

theorem firstSeen_append_singleton (s : List String) (a : String) :
    firstSeen (s ++ [a]) = if a ∈ s then firstSeen s else firstSeen s ++ [a] := by
  have h1 : firstSeen (s ++ [a]) = firstSeenStep (firstSeen s) a := by
    unfold firstSeen
    rw [List.foldl_append]
    rfl
  rw [h1]
  unfold firstSeenStep
  by_cases h : a ∈ s
  · rw [if_pos ((mem_firstSeen s a).mpr h), if_pos h]
  · rw [if_neg (fun hc => h ((mem_firstSeen s a).mp hc)), if_neg h]

theorem bump_map_of_not_mem (g : String → Nat) (a : String) :
    ∀ ks : List String, (∀ x ∈ ks, x ≠ a) →
      bump (ks.map (fun x => (x, g x))) a = ks.map (fun x => (x, g x)) ++ [(a, 1)] := by
  intro ks
  induction ks with
  | nil => intro _; simp [bump]
  | cons x rest ih =>
    intro h
    simp only [List.map_cons, bump]
    rw [if_neg (h x (List.mem_cons_self x rest))]
    rw [ih (fun y hy => h y (List.mem_cons.mpr (Or.inr hy)))]
    simp

theorem bump_map_of_mem (g : String → Nat) (a : String) :
    ∀ ks : List String, ks.Nodup → a ∈ ks →
      bump (ks.map (fun x => (x, g x))) a =
        ks.map (fun x => (x, if x = a then g x + 1 else g x)) := by
  intro ks
  induction ks with
  | nil => intro _ h; simp at h
  | cons x rest ih =>
    intro hnd hmem
    have hx : x ∉ rest := (List.nodup_cons.mp hnd).1
    have hrest : rest.Nodup := (List.nodup_cons.mp hnd).2
    simp only [List.map_cons, bump]
    rcases List.mem_cons.mp hmem with rfl | ha
    · rw [if_pos rfl, if_pos rfl]
      congr 1
      apply List.map_congr_left
      intro y hy
      have hyx : y ≠ a := fun hya => hx (by rw [← hya]; exact hy)
      rw [if_neg hyx]
    · have hxa : x ≠ a := fun hc => hx (hc ▸ ha)
      rw [if_neg hxa, if_neg hxa]
      rw [ih hrest ha]

theorem tallyFoldK_eq (s : List String) :
    tallyFoldK [] s = (firstSeen s).map (fun a => (a, s.count a)) := by
  induction s using List.reverseRecOn with
  | nil => simp [tallyFoldK, firstSeen]
  | append_singleton s a ih =>
    have hl : tallyFoldK [] (s ++ [a]) = bump (tallyFoldK [] s) a := by
      simp [tallyFoldK, List.foldl_append]
    rw [hl, ih, firstSeen_append_singleton]
    by_cases ha : a ∈ s
    · rw [if_pos ha]
      rw [bump_map_of_mem _ _ _ (firstSeen_nodup s) ((mem_firstSeen s a).mpr ha)]
      apply List.map_congr_left
      intro x hx
      by_cases hxa : x = a
      · subst hxa
        simp [List.count_append]
      · have hax : ¬ a = x := fun h => hxa h.symm
        simp [List.count_append, hxa, hax]
    · rw [if_neg ha]
      rw [bump_map_of_not_mem _ _ _
        (fun x hx hc => ha (by rw [← hc]; exact (mem_firstSeen s x).mp hx))]
      rw [List.map_append]
      congr 1
      · apply List.map_congr_left
        intro x hx
        have hxa : x ≠ a := fun hc => ha (hc ▸ (mem_firstSeen s x).mp hx)
        have hone : List.count x [a] = 0 := by
          rw [List.count_eq_zero]
          simp [hxa]
        simp [List.count_append, hone]
      · simp [List.count_append, List.count_eq_zero.mpr ha]

theorem pickTop_of_all_le : ∀ (t : List (String × Nat)) (acc : String × Nat),
    (∀ p ∈ t, p.2 ≤ acc.2) → pickTop t acc = acc := by
  intro t
  induction t with
  | nil => intro acc _; rfl
  | cons p rest ih =>
    intro acc h
    simp only [pickTop]
    rw [if_neg (by have := h p (List.mem_cons_self p rest); omega)]
    exact ih acc (fun q hq => h q (List.mem_cons.mpr (Or.inr hq)))

theorem pickTop_spec : ∀ (t : List (String × Nat)) (acc : String × Nat),
    (∃ p ∈ t, acc.2 < p.2) →
    ∃ i : Nat, ∃ x : String × Nat, t[i]? = some x ∧ pickTop t acc = x ∧ acc.2 < x.2 ∧
      (∀ p ∈ t, p.2 ≤ x.2) ∧
      (∀ j : Nat, j < i → ∀ q : String × Nat, t[j]? = some q → q.2 < x.2) := by
  intro t
  induction t with
  | nil =>
    rintro acc ⟨p, hp, _⟩
    simp at hp
  | cons p rest ih =>
    intro acc hex
    by_cases hp : p.2 > acc.2
    · simp only [pickTop, if_pos hp]
      by_cases hrest : ∃ q ∈ rest, p.2 < q.2
      · obtain ⟨i, x, h1, h2, h3, h4, h5⟩ := ih p hrest
        refine ⟨i + 1, x, by simpa using h1, h2, by omega, ?_, ?_⟩
        · intro q hq
          rcases List.mem_cons.mp hq with h | h
          · subst h; omega
          · exact h4 q h
        · intro j hj q hq
          rcases j with _ | j2
          · simp only [List.getElem?_cons_zero, Option.some.injEq] at hq
            subst hq
            omega
          · simp only [List.getElem?_cons_succ] at hq
            exact h5 j2 (by omega) q hq
      · push_neg at hrest
        rw [pickTop_of_all_le rest p hrest]
        refine ⟨0, p, by simp, rfl, hp, ?_, ?_⟩
        · intro q hq
          rcases List.mem_cons.mp hq with h | h
          · subst h; omega
          · exact hrest q h
        · intro j hj
          omega
    · simp only [pickTop, if_neg hp]
      have hex2 : ∃ q ∈ rest, acc.2 < q.2 := by
        obtain ⟨q, hq, hlt⟩ := hex
        rcases List.mem_cons.mp hq with h | h
        · subst h
          omega
        · exact ⟨q, h, hlt⟩
      obtain ⟨i, x, h1, h2, h3, h4, h5⟩ := ih acc hex2
      refine ⟨i + 1, x, by simpa using h1, h2, h3, ?_, ?_⟩
      · intro q hq
        rcases List.mem_cons.mp hq with h | h
        · subst h; omega
        · exact h4 q h
      · intro j hj q hq
        rcases j with _ | j2
        · simp only [List.getElem?_cons_zero, Option.some.injEq] at hq
          subst hq
          omega
        · simp only [List.getElem?_cons_succ] at hq
          exact h5 j2 (by omega) q hq

theorem tally_eq (L : List Commit) :
    getTopContributorLoop L [] 1 =
      (firstSeen (sampledAuthors L)).map
        (fun a => (a, (sampledAuthors L).count a)) := by
  rw [tallyLoop_take500]
  have h : tallyFoldC [] (L.take 500) = tallyFoldK [] (sampledAuthors L) := by
    simp only [tallyFoldC, tallyFoldK, sampledAuthors]
    rw [List.foldl_map]
  rw [h, tallyFoldK_eq]

/-- C4: on every sampled commit sequence, `getTopContributor` returns the
author with the highest tally, breaking ties in favour of the author first
inserted into the tally (first-seen order over the commit stream), and
returns the sentinel `"N/A"` when no commits were found: the result is the
earliest entry of `firstSeen` attaining the maximal occurrence count. -/
theorem claim_C4 (L : List Commit) :
    (sampledAuthors L = [] → topContribFromList L = "N/A") ∧
    (sampledAuthors L ≠ [] →
      ∃ i : Nat, ∃ r : String,
        (firstSeen (sampledAuthors L))[i]? = some r ∧
        topContribFromList L = r ∧
        r ∈ sampledAuthors L ∧
        (∀ a ∈ sampledAuthors L, (sampledAuthors L).count a ≤ (sampledAuthors L).count r) ∧
        (∀ j : Nat, j < i → ∀ a : String, (firstSeen (sampledAuthors L))[j]? = some a →
          (sampledAuthors L).count a < (sampledAuthors L).count r)) := by
  constructor
  · intro hs
    unfold topContribFromList
    rw [tally_eq, hs]
    simp [firstSeen]
  · intro hs
    obtain ⟨a0, s0, hs0⟩ := List.exists_cons_of_ne_nil hs
    have ha0 : a0 ∈ sampledAuthors L := by rw [hs0]; exact List.mem_cons_self a0 s0
    have ha0f : a0 ∈ firstSeen (sampledAuthors L) := (mem_firstSeen _ a0).mpr ha0
    have htne : (firstSeen (sampledAuthors L)).map
        (fun a => (a, (sampledAuthors L).count a)) ≠ [] := by
      simp only [ne_eq, List.map_eq_nil_iff]
      intro h
      rw [h] at ha0f
      simp at ha0f
    have hex : ∃ p ∈ (firstSeen (sampledAuthors L)).map
        (fun a => (a, (sampledAuthors L).count a)), (("N/A", 0) : String × Nat).2 < p.2 := by
      refine ⟨(a0, (sampledAuthors L).count a0), List.mem_map_of_mem _ ha0f, ?_⟩
      simpa using List.count_pos_iff.mpr ha0
    obtain ⟨i, x, h1, h2, h3, h4, h5⟩ := pickTop_spec _ ("N/A", 0) hex
    rw [List.getElem?_map] at h1
    rcases hfx : (firstSeen (sampledAuthors L))[i]? with _ | r
    · rw [hfx] at h1
      simp at h1
    · rw [hfx] at h1
      simp only [Option.map_some'] at h1
      have hx : x = (r, (sampledAuthors L).count r) := by
        exact (Option.some.injEq _ _).mp h1.symm ▸ rfl
      refine ⟨i, r, hfx, ?_, ?_, ?_, ?_⟩
      · unfold topContribFromList
        rw [tally_eq, if_neg htne, h2, hx]
      · exact (mem_firstSeen _ r).mp (List.getElem?_mem hfx)
      · intro a ha
        have : ((a, (sampledAuthors L).count a) : String × Nat).2 ≤ x.2 :=
          h4 _ (List.mem_map_of_mem _ ((mem_firstSeen _ a).mpr ha))
        rw [hx] at this
        simpa using this
      · intro j hj a haj
        have hqj : ((firstSeen (sampledAuthors L)).map
            (fun a => (a, (sampledAuthors L).count a)))[j]? =
            some (a, (sampledAuthors L).count a) := by
          rw [List.getElem?_map, haj]
          rfl
        have := h5 j hj _ hqj
        rw [hx] at this
        simpa using this

def commitsABAB : List Commit :=
  [⟨some "A", none⟩, ⟨some "B", none⟩, ⟨some "A", none⟩, ⟨some "B", none⟩]

/-- C4 (witness): the theorem applied at a concrete sample with a 2-2 tie
between authors `A` (seen first) and `B`. -/
theorem claim_C4_witness :
    sampledAuthors commitsABAB ≠ [] ∧
    (∃ i : Nat, ∃ r : String,
      (firstSeen (sampledAuthors commitsABAB))[i]? = some r ∧
      topContribFromList commitsABAB = r ∧
      r ∈ sampledAuthors commitsABAB ∧
      (∀ a ∈ sampledAuthors commitsABAB,
        (sampledAuthors commitsABAB).count a ≤ (sampledAuthors commitsABAB).count r) ∧
      (∀ j : Nat, j < i → ∀ a : String,
        (firstSeen (sampledAuthors commitsABAB))[j]? = some a →
        (sampledAuthors commitsABAB).count a < (sampledAuthors commitsABAB).count r)) :=
  ⟨by decide, (claim_C4 commitsABAB).2 (by decide)⟩

theorem terminalEvent_fields (c : CompanyInput) (out : AnalyzeOutcome) (k tot : Nat) :
    isTerm (terminalEvent c out k tot) = true ∧
    (terminalEvent c out k tot).type ≠ EventType.done ∧
    (terminalEvent c out k tot).completed = some k ∧
    (terminalEvent c out k tot).total = some tot := by
  cases out with
  | ok r =>
    refine ⟨?_, ?_, rfl, rfl⟩
    · simp only [terminalEvent, isTerm]
      by_cases hr : r.error.isSome <;> simp [hr]
    · simp only [terminalEvent]
      by_cases hr : r.error.isSome <;> simp [hr]
  | thrown m => exact ⟨rfl, by simp [terminalEvent], rfl, rfl⟩
  | emptyReduceFault => exact ⟨rfl, by simp [terminalEvent], rfl, rfl⟩

theorem analyzeCompany_name (ok : Octokit) (c : CompanyInput) (r : CompanyResult)
    (h : (analyzeCompany ok c).2 = AnalyzeOutcome.ok r) : r.company_name = c.company_name := by
  unfold analyzeCompany at h
  simp only [] at h
  repeat' split at h
  all_goals simp only [AnalyzeOutcome.ok.injEq, AnalyzeOutcome.thrown.injEq,
    reduceCtorEq] at h
  all_goals rw [← h]
  all_goals rfl

theorem completedOf_terminalEvent (c : CompanyInput) (out : AnalyzeOutcome) (k tot : Nat) :
    completedOf (terminalEvent c out k tot) = k := by
  cases out <;> simp [terminalEvent, completedOf]

theorem terminalEvent_company (ok : Octokit) (c : CompanyInput) (k tot : Nat) :
    (terminalEvent c (analyzeCompany ok c).2 k tot).company = some c.company_name := by
  cases hout : (analyzeCompany ok c).2 with
  | ok r =>
    simp only [terminalEvent]
    rw [analyzeCompany_name ok c r hout]
  | thrown m => rfl
  | emptyReduceFault => rfl

theorem taskProgressEvents_mem (c : CompanyInput) (msgs : List String) (c0 tot : Nat) :
    ∀ e ∈ taskProgressEvents c msgs c0 tot,
      e.type = EventType.progress ∧ e.completed = some c0 ∧ e.total = some tot := by
  intro e he
  unfold taskProgressEvents at he
  rcases List.mem_cons.mp he with rfl | he2
  · exact ⟨rfl, rfl, rfl⟩
  · obtain ⟨m, _, rfl⟩ := List.mem_map.mp he2
    exact ⟨rfl, rfl, rfl⟩

theorem getD_mem_or_nil (seqs : List (List ProgressEvent)) (i : Nat) :
    seqs.getD i [] ∈ seqs ∨ seqs.getD i [] = [] := by
  by_cases hi : i < seqs.length
  · left
    rw [List.getD_eq_getElem?_getD, List.getElem?_eq_getElem hi]
    simp only [Option.getD_some]
    exact List.getElem_mem hi
  · right
    rw [List.getD_eq_getElem?_getD, List.getElem?_eq_none (by omega)]
    rfl

theorem interleave_all {P : ProgressEvent → Prop} :
    ∀ (order : List Nat) (seqs : List (List ProgressEvent)),
      (∀ s ∈ seqs, ∀ e ∈ s, P e) → ∀ e ∈ interleave order seqs, P e := by
  intro order
  induction order with
  | nil =>
    intro seqs h e he
    simp only [interleave] at he
    rw [List.mem_flatten] at he
    obtain ⟨s, hs, hes⟩ := he
    exact h s hs e hes
  | cons i rest ih =>
    intro seqs h e he
    simp only [interleave] at he
    rcases hget : seqs.getD i [] with _ | ⟨e0, tail⟩
    · rw [hget] at he
      exact ih seqs h e he
    · rw [hget] at he
      have htail : ∀ e2 ∈ e0 :: tail, P e2 := by
        rcases getD_mem_or_nil seqs i with hmem | hmem
        · rw [hget] at hmem
          exact h _ hmem
        · rw [hget] at hmem
          exact absurd hmem (by simp)
      rcases List.mem_cons.mp he with rfl | he2
      · exact htail e (List.mem_cons_self e tail)
      · refine ih (seqs.set i tail) ?_ e he2
        intro s hs e2 he2m
        rcases List.mem_or_eq_of_mem_set hs with hsold | rfl
        · exact h s hsold e2 he2m
        · exact htail e2 (List.mem_cons.mpr (Or.inr he2m))

theorem windowTerminals_eq (ok : Octokit) (tot : Nat) :
    ∀ (batch : List CompanyInput) (k : Nat),
      windowTerminals (batch.map (fun c => (c, analyzeCompany ok c))) k tot =
        expectedTerminals ok tot batch k := by
  intro batch
  induction batch with
  | nil => intro k; rfl
  | cons c rest ih =>
    intro k
    simp only [List.map_cons, windowTerminals, expectedTerminals, ih]

theorem expectedTerminals_append (ok : Octokit) (tot : Nat) :
    ∀ (l1 l2 : List CompanyInput) (k : Nat),
      expectedTerminals ok tot (l1 ++ l2) k =
        expectedTerminals ok tot l1 k ++ expectedTerminals ok tot l2 (k + l1.length) := by
  intro l1
  induction l1 with
  | nil => intro l2 k; simp [expectedTerminals]
  | cons c rest ih =>
    intro l2 k
    simp only [List.cons_append, expectedTerminals, List.append_eq, ih, List.length_cons]
    rw [(by omega : k + (rest.length + 1) = k + 1 + rest.length)]

theorem expectedTerminals_length (ok : Octokit) (tot : Nat) :
    ∀ (l : List CompanyInput) (k : Nat), (expectedTerminals ok tot l k).length = l.length := by
  intro l
  induction l with
  | nil => intro k; rfl
  | cons c rest ih => intro k; simp [expectedTerminals, ih]

theorem expectedTerminals_mem (ok : Octokit) (tot : Nat) :
    ∀ (l : List CompanyInput) (k : Nat), ∀ e ∈ expectedTerminals ok tot l k,
      isTerm e = true ∧ e.type ≠ EventType.done ∧ e.total = some tot ∧
      e.completed = some (completedOf e) ∧ k + 1 ≤ completedOf e ∧
      completedOf e ≤ k + l.length := by
  intro l
  induction l with
  | nil =>
    intro k e he
    simp [expectedTerminals] at he
  | cons c rest ih =>
    intro k e he
    rcases List.mem_cons.mp he with rfl | he2
    · obtain ⟨f1, f2, f3, f4⟩ := terminalEvent_fields c (analyzeCompany ok c).2 (k + 1) tot
      have hco := completedOf_terminalEvent c (analyzeCompany ok c).2 (k + 1) tot
      refine ⟨f1, f2, f4, ?_, by omega, ?_⟩
      · rw [f3, hco]
      · rw [hco]
        simp only [List.length_cons]
        omega
    · obtain ⟨g1, g2, g3, g4, g5, g6⟩ := ih (k + 1) e he2
      refine ⟨g1, g2, g3, g4, by omega, ?_⟩
      simp only [List.length_cons]
      omega

theorem expectedTerminals_map_completed (ok : Octokit) (tot : Nat) :
    ∀ (l : List CompanyInput) (k : Nat),
      (expectedTerminals ok tot l k).map (fun e => e.completed) =
        (List.range l.length).map (fun j => some (k + j + 1)) := by
  intro l
  induction l with
  | nil => intro k; rfl
  | cons c rest ih =>
    intro k
    simp only [expectedTerminals, List.map_cons, List.length_cons, List.range_succ_eq_map,
      List.map_map]
    rw [(terminalEvent_fields c (analyzeCompany ok c).2 (k + 1) tot).2.2.1, ih (k + 1)]
    congr 1
    apply List.map_congr_left
    intro j _
    simp only [Function.comp_apply]
    congr 1
    omega

theorem expectedTerminals_map_company (ok : Octokit) (tot : Nat) :
    ∀ (l : List CompanyInput) (k : Nat),
      (expectedTerminals ok tot l k).map (fun e => e.company) =
        l.map (fun c => some c.company_name) := by
  intro l
  induction l with
  | nil => intro k; rfl
  | cons c rest ih =>
    intro k
    simp only [expectedTerminals, List.map_cons, terminalEvent_company, ih]

theorem expectedTerminals_last (ok : Octokit) (tot : Nat) :
    ∀ (l : List CompanyInput) (k : Nat), l ≠ [] →
      ∃ pre lastE, expectedTerminals ok tot l k = pre ++ [lastE] ∧
        completedOf lastE = k + l.length ∧ isTerm lastE = true ∧
        lastE.completed = some (completedOf lastE) ∧ lastE.total = some tot ∧
        (∀ e ∈ pre, completedOf e < k + l.length) := by
  intro l
  induction l with
  | nil => intro k h; exact absurd rfl h
  | cons c rest ih =>
    intro k _
    by_cases hr : rest = []
    · subst hr
      refine ⟨[], terminalEvent c (analyzeCompany ok c).2 (k + 1) tot,
        by simp [expectedTerminals], ?_,
        (terminalEvent_fields _ _ _ _).1, ?_,
        (terminalEvent_fields _ _ _ _).2.2.2, by simp⟩
      · rw [completedOf_terminalEvent]
        simp
      · rw [(terminalEvent_fields _ _ _ _).2.2.1, completedOf_terminalEvent]
    · obtain ⟨pre, lastE, h1, h2, h3, h4, h5, h6⟩ := ih (k + 1) hr
      refine ⟨terminalEvent c (analyzeCompany ok c).2 (k + 1) tot :: pre, lastE, ?_, ?_,
        h3, h4, h5, ?_⟩
      · simp [expectedTerminals, h1]
      · rw [h2]
        simp only [List.length_cons]
        omega
      · intro e he
        have hlen : 1 ≤ rest.length := by
          rcases rest with _ | _
          · exact absurd rfl hr
          · simp
        rcases List.mem_cons.mp he with rfl | he2
        · rw [completedOf_terminalEvent]
          simp only [List.length_cons]
          omega
        · have := h6 e he2
          simp only [List.length_cons]
          omega

theorem expectedTerminals_chain (ok : Octokit) (tot : Nat) :
    ∀ (l : List CompanyInput) (k : Nat),
      List.Chain' (fun a b => completedOf a ≤ completedOf b) (expectedTerminals ok tot l k) := by
  intro l
  induction l with
  | nil => intro k; simp [expectedTerminals]
  | cons c rest ih =>
    intro k
    rw [show expectedTerminals ok tot (c :: rest) k =
      terminalEvent c (analyzeCompany ok c).2 (k + 1) tot ::
        expectedTerminals ok tot rest (k + 1) from rfl]
    rw [List.chain'_cons']
    refine ⟨?_, ih (k + 1)⟩
    intro b hb
    have hbmem : b ∈ expectedTerminals ok tot rest (k + 1) := List.mem_of_mem_head? hb
    have hlow := (expectedTerminals_mem ok tot rest (k + 1) b hbmem).2.2.2.2.1
    rw [completedOf_terminalEvent]
    omega

theorem windowProgress_mem (ok : Octokit) (batch : List CompanyInput) (c0 tot : Nat)
    (ws : WindowSched) :
    ∀ e ∈ interleave ws.progressOrder
      ((batch.map (fun c => (c, analyzeCompany ok c))).map
        (fun p => taskProgressEvents p.1 p.2.1 c0 tot)),
      e.type = EventType.progress ∧ e.completed = some c0 ∧ e.total = some tot := by
  apply interleave_all
  intro s hs e he
  obtain ⟨p, _, rfl⟩ := List.mem_map.mp hs
  exact taskProgressEvents_mem p.1 p.2.1 c0 tot e he

theorem chain'_const (l : List ProgressEvent) (c0 : Nat)
    (h : ∀ e ∈ l, completedOf e = c0) :
    List.Chain' (fun a b => completedOf a ≤ completedOf b) l := by
  induction l with
  | nil => simp
  | cons a t ih =>
    rw [List.chain'_cons']
    refine ⟨?_, ih (fun e he => h e (List.mem_cons.mpr (Or.inr he)))⟩
    intro b hb
    rw [h a (List.mem_cons_self a t),
      h b (List.mem_cons.mpr (Or.inr (List.mem_of_mem_head? hb)))]

theorem windowEvents_filter (ok : Octokit) (batch : List CompanyInput) (c0 tot : Nat)
    (ws : WindowSched) :
    (windowEvents ok batch c0 tot ws).filter isTerm = expectedTerminals ok tot batch c0 := by
  simp only [windowEvents]
  rw [List.filter_append]
  have h1 : (interleave ws.progressOrder
      ((batch.map (fun c => (c, analyzeCompany ok c))).map
        (fun p => taskProgressEvents p.1 p.2.1 c0 tot))).filter isTerm = [] := by
    rw [List.filter_eq_nil_iff]
    intro e he
    have ht := (windowProgress_mem ok batch c0 tot ws e he).1
    simp [isTerm, ht]
  have h2 : (windowTerminals (batch.map (fun c => (c, analyzeCompany ok c))) c0 tot).filter
      isTerm = windowTerminals (batch.map (fun c => (c, analyzeCompany ok c))) c0 tot := by
    rw [List.filter_eq_self]
    intro e he
    rw [windowTerminals_eq] at he
    exact (expectedTerminals_mem ok tot batch c0 e he).1
  rw [h1, h2, windowTerminals_eq]
  simp

theorem windowEvents_mem (ok : Octokit) (batch : List CompanyInput) (c0 tot : Nat)
    (ws : WindowSched) :
    ∀ e ∈ windowEvents ok batch c0 tot ws,
      e.type ≠ EventType.done ∧ e.total = some tot ∧ e.completed = some (completedOf e) ∧
      c0 ≤ completedOf e ∧ completedOf e ≤ c0 + batch.length := by
  intro e he
  simp only [windowEvents] at he
  rcases List.mem_append.mp he with h | h
  · obtain ⟨ht, hc, htot⟩ := windowProgress_mem ok batch c0 tot ws e h
    have hco : completedOf e = c0 := by simp [completedOf, hc]
    refine ⟨by rw [ht]; simp, htot, by rw [hc, hco], by omega, by omega⟩
  · rw [windowTerminals_eq] at h
    obtain ⟨_, h2, h3, h4, h5, h6⟩ := expectedTerminals_mem ok tot batch c0 e h
    exact ⟨h2, h3, h4, by omega, h6⟩

theorem windowEvents_chain (ok : Octokit) (batch : List CompanyInput) (c0 tot : Nat)
    (ws : WindowSched) :
    List.Chain' (fun a b => completedOf a ≤ completedOf b) (windowEvents ok batch c0 tot ws) := by
  simp only [windowEvents]
  rw [List.chain'_append]
  refine ⟨?_, ?_, ?_⟩
  · apply chain'_const _ c0
    intro e he
    have := (windowProgress_mem ok batch c0 tot ws e he).2.1
    simp [completedOf, this]
  · rw [windowTerminals_eq]
    exact expectedTerminals_chain ok tot batch c0
  · intro x hx y hy
    have hxm := List.mem_of_mem_getLast? hx
    have hym := List.mem_of_mem_head? hy
    have hxc := (windowProgress_mem ok batch c0 tot ws x hxm).2.1
    rw [windowTerminals_eq] at hym
    have hyl := (expectedTerminals_mem ok tot batch c0 y hym).2.2.2.2.1
    have : completedOf x = c0 := by simp [completedOf, hxc]
    omega

theorem windowEvents_last (ok : Octokit) (batch : List CompanyInput) (c0 tot : Nat)
    (ws : WindowSched) (hb : batch ≠ []) :
    ∃ pre lastE, windowEvents ok batch c0 tot ws = pre ++ [lastE] ∧
      completedOf lastE = c0 + batch.length ∧
      (∀ e ∈ pre, completedOf e < c0 + batch.length) := by
  obtain ⟨pre2, lastE, h1, h2, _, _, _, h6⟩ := expectedTerminals_last ok tot batch c0 hb
  have hlen : 1 ≤ batch.length := List.length_pos.mpr hb
  refine ⟨interleave ws.progressOrder
      ((batch.map (fun c => (c, analyzeCompany ok c))).map
        (fun p => taskProgressEvents p.1 p.2.1 c0 tot)) ++ pre2, lastE, ?_, h2, ?_⟩
  · simp only [windowEvents]
    rw [windowTerminals_eq, h1, ← List.append_assoc]
  · intro e he
    rcases List.mem_append.mp he with h | h
    · have hc := (windowProgress_mem ok batch c0 tot ws e h).2.1
      have : completedOf e = c0 := by simp [completedOf, hc]
      omega
    · exact h6 e h

theorem chunk5_flatten : ∀ cs : List CompanyInput, (chunk5 cs).flatten = cs := by
  intro cs
  induction cs using chunk5.induct with
  | case1 => rfl
  | case2 a b c d e rest ih => simp [chunk5, ih]
  | case3 l h1 h2 => simp [chunk5, h1, h2]

theorem chunk5_ne_nil : ∀ cs : List CompanyInput, cs ≠ [] → chunk5 cs ≠ [] := by
  intro cs
  induction cs using chunk5.induct with
  | case1 => intro h; exact absurd rfl h
  | case2 a b c d e rest ih => intro _; simp [chunk5]
  | case3 l h1 h2 => intro _; simp [chunk5, h1, h2]

theorem chunk5_mem_ne_nil : ∀ cs : List CompanyInput, ∀ b ∈ chunk5 cs, b ≠ [] := by
  intro cs
  induction cs using chunk5.induct with
  | case1 => intro b hb; simp [chunk5] at hb
  | case2 a b c d e rest ih =>
    intro x hx
    simp only [chunk5, List.mem_cons] at hx
    rcases hx with rfl | hx
    · simp
    · exact ih x hx
  | case3 l h1 h2 =>
    intro x hx
    simp only [chunk5, h1, h2] at hx
    simp only [List.mem_singleton] at hx
    subst hx
    exact h1

theorem runWindows_filter (ok : Octokit) (tot : Nat) (sched : Nat → WindowSched) :
    ∀ (chunks : List (List CompanyInput)) (c0 w : Nat),
      (runWindows ok tot sched chunks c0 w).filter isTerm =
        expectedTerminals ok tot chunks.flatten c0 := by
  intro chunks
  induction chunks with
  | nil => intro c0 w; rfl
  | cons batch rest ih =>
    intro c0 w
    simp only [runWindows, List.filter_append, windowEvents_filter, ih, List.flatten_cons]
    rw [expectedTerminals_append]

theorem runWindows_mem (ok : Octokit) (tot : Nat) (sched : Nat → WindowSched) :
    ∀ (chunks : List (List CompanyInput)) (c0 w : Nat),
      ∀ e ∈ runWindows ok tot sched chunks c0 w,
        e.type ≠ EventType.done ∧ e.total = some tot ∧ e.completed = some (completedOf e) ∧
        c0 ≤ completedOf e ∧ completedOf e ≤ c0 + chunks.flatten.length := by
  intro chunks
  induction chunks with
  | nil =>
    intro c0 w e he
    simp [runWindows] at he
  | cons batch rest ih =>
    intro c0 w e he
    simp only [runWindows] at he
    rcases List.mem_append.mp he with h | h
    · obtain ⟨g1, g2, g3, g4, g5⟩ := windowEvents_mem ok batch c0 tot (sched w) e h
      refine ⟨g1, g2, g3, g4, ?_⟩
      simp only [List.flatten_cons, List.length_append]
      omega
    · obtain ⟨g1, g2, g3, g4, g5⟩ := ih (c0 + batch.length) (w + 1) e h
      refine ⟨g1, g2, g3, by omega, ?_⟩
      simp only [List.flatten_cons, List.length_append]
      omega

theorem runWindows_chain (ok : Octokit) (tot : Nat) (sched : Nat → WindowSched) :
    ∀ (chunks : List (List CompanyInput)) (c0 w : Nat),
      List.Chain' (fun a b => completedOf a ≤ completedOf b)
        (runWindows ok tot sched chunks c0 w) := by
  intro chunks
  induction chunks with
  | nil => intro c0 w; simp [runWindows]
  | cons batch rest ih =>
    intro c0 w
    simp only [runWindows]
    rw [List.chain'_append]
    refine ⟨windowEvents_chain ok batch c0 tot (sched w), ih (c0 + batch.length) (w + 1), ?_⟩
    intro x hx y hy
    have hxm := List.mem_of_mem_getLast? hx
    have hym := List.mem_of_mem_head? hy
    have hxb := (windowEvents_mem ok batch c0 tot (sched w) x hxm).2.2.2.2
    have hyb := (runWindows_mem ok tot sched rest (c0 + batch.length) (w + 1) y hym).2.2.2.1
    omega

theorem runWindows_last (ok : Octokit) (tot : Nat) (sched : Nat → WindowSched) :
    ∀ (chunks : List (List CompanyInput)) (c0 w : Nat), chunks ≠ [] →
      (∀ b ∈ chunks, b ≠ []) →
      ∃ pre lastE, runWindows ok tot sched chunks c0 w = pre ++ [lastE] ∧
        completedOf lastE = c0 + chunks.flatten.length ∧
        (∀ e ∈ pre, completedOf e < c0 + chunks.flatten.length) := by
  intro chunks
  induction chunks with
  | nil => intro c0 w h _; exact absurd rfl h
  | cons batch rest ih =>
    intro c0 w _ hmem
    have hbatch : batch ≠ [] := hmem batch (List.mem_cons_self batch rest)
    by_cases hr : rest = []
    · subst hr
      obtain ⟨pre, lastE, h1, h2, h3⟩ := windowEvents_last ok batch c0 tot (sched w) hbatch
      refine ⟨pre, lastE, ?_, ?_, ?_⟩
      · simp only [runWindows, List.append_nil, h1]
      · rw [h2]
        simp
      · intro e he
        have := h3 e he
        simp only [List.flatten_cons, List.flatten_nil, List.length_append, List.length_nil]
        omega
    · obtain ⟨pre2, lastE, hh1, hh2, hh3⟩ :=
        ih (c0 + batch.length) (w + 1) hr
          (fun b hb => hmem b (List.mem_cons.mpr (Or.inr hb)))
      have hflat : 1 ≤ rest.flatten.length := by
        obtain ⟨b0, r0, rfl⟩ := List.exists_cons_of_ne_nil hr
        have hb0 : b0 ≠ [] := hmem b0 (List.mem_cons.mpr (Or.inr (List.mem_cons_self b0 r0)))
        have : 1 ≤ b0.length := List.length_pos.mpr hb0
        simp only [List.flatten_cons, List.length_append]
        omega
      refine ⟨windowEvents ok batch c0 tot (sched w) ++ pre2, lastE, ?_, ?_, ?_⟩
      · simp only [runWindows, hh1, List.append_assoc]
      · rw [hh2]
        simp only [List.flatten_cons, List.length_append]
        omega
      · intro e he
        simp only [List.flatten_cons, List.length_append]
        rcases List.mem_append.mp he with h | h
        · have := (windowEvents_mem ok batch c0 tot (sched w) e h).2.2.2.2
          omega
        · have := hh3 e h
          omega

theorem processCompanies_filter (token : String) (beh : OctokitBehavior)
    (cs : List CompanyInput) (sched : Nat → WindowSched) :
    (processCompanies token beh cs sched).filter isTerm =
      expectedTerminals (createOctokit token beh) cs.length cs 0 := by
  simp only [processCompanies, List.filter_append]
  have hdone : ([doneEvent cs.length].filter isTerm) = [] := by
    simp [doneEvent, isTerm]
  rw [hdone, List.append_nil, runWindows_filter, chunk5_flatten]

/-- C1: for every batch of N companies, with any remote behaviour and any
schedule, the stream contains exactly N terminal (`result`/`error`)
events — one per `CompanyInput`, carrying its company name — and exactly
one `done` event, which is strictly last and carries
`completed = total = N`. -/
theorem claim_C1 (token : String) (beh : OctokitBehavior) (cs : List CompanyInput)
    (sched : Nat → WindowSched) :
    ((processCompanies token beh cs sched).filter isTerm).length = cs.length ∧
    ((processCompanies token beh cs sched).filter isTerm).map (fun e => e.company) =
      cs.map (fun c => some c.company_name) ∧
    (∃ pre, processCompanies token beh cs sched = pre ++ [doneEvent cs.length] ∧
      pre.all (fun e => !(isDoneEv e)) = true) ∧
    (doneEvent cs.length).type = EventType.done ∧
    (doneEvent cs.length).completed = some cs.length ∧
    (doneEvent cs.length).total = some cs.length := by
  refine ⟨?_, ?_, ?_, rfl, rfl, rfl⟩
  · rw [processCompanies_filter, expectedTerminals_length]
  · rw [processCompanies_filter, expectedTerminals_map_company]
  · refine ⟨runWindows (createOctokit token beh) cs.length sched (chunk5 cs) 0 0, rfl, ?_⟩
    rw [List.all_eq_true]
    intro e he
    have hne := (runWindows_mem (createOctokit token beh) cs.length sched
      (chunk5 cs) 0 0 e he).1
    simp [isDoneEv, hne]

/-- C8 (amended): the `completed` counter increments exactly once per
settled entry, and the terminal events of each window are emitted in the
entries' input order — `Promise.allSettled` returns its results array in
input order and the settle loop walks that array — regardless of the
settlement order and of the progress interleaving: the terminal
subsequence equals `expectedTerminals` (input order, `completed = j + 1`
for the `j`-th entry overall) for every schedule. -/
theorem claim_C8_amended (token : String) (beh : OctokitBehavior) (cs : List CompanyInput)
    (sched : Nat → WindowSched) :
    (processCompanies token beh cs sched).filter isTerm =
      expectedTerminals (createOctokit token beh) cs.length cs 0 ∧
    ((processCompanies token beh cs sched).filter isTerm).map (fun e => e.completed) =
      (List.range cs.length).map (fun j => some (j + 1)) ∧
    (∀ sched2 : Nat → WindowSched,
      (processCompanies token beh cs sched2).filter isTerm =
        (processCompanies token beh cs sched).filter isTerm) := by
  refine ⟨processCompanies_filter token beh cs sched, ?_, ?_⟩
  · rw [processCompanies_filter, expectedTerminals_map_completed]
    apply List.map_congr_left
    intro j _
    congr 1
    omega
  · intro sched2
    rw [processCompanies_filter, processCompanies_filter]

def behEmpty : OctokitBehavior := ⟨fun _ => Except.ok [], fun _ _ => Except.ok []⟩

def schedSwap : Nat → WindowSched := fun _ => ⟨[], [1, 0]⟩

def csAB : List CompanyInput := [⟨"A", "x"⟩, ⟨"B", "y"⟩]

/-- C8 (counterexample): with two companies in one window and a schedule
in which entry 1 settles before entry 0, the code still emits the
terminal events in input order `[A, B]`, not in the settlement order
`[B, A]` the claim asserts. -/
theorem claim_C8_counterexample :
    ((processCompanies "t" behEmpty csAB schedSwap).filter isTerm).map (fun e => e.company) =
      [some "A", some "B"] ∧
    settlePermuted ((schedSwap 0).settleOrder) (csAB.map (fun c => some c.company_name)) =
      [some "B", some "A"] ∧
    ((processCompanies "t" behEmpty csAB schedSwap).filter isTerm).map (fun e => e.company) ≠
      settlePermuted ((schedSwap 0).settleOrder) (csAB.map (fun c => some c.company_name)) := by
  refine ⟨by decide, by decide, by decide⟩

/-- C7 (amended): `completed` is monotonically non-decreasing from event
to event, and an event carries `completed = total` only at one of the
last two positions of the stream — the terminal done event and the final
result/error event that immediately precedes it. -/
theorem claim_C7_amended (token : String) (beh : OctokitBehavior) (cs : List CompanyInput)
    (sched : Nat → WindowSched) :
    List.Chain' (fun a b => completedOf a ≤ completedOf b)
      (processCompanies token beh cs sched) ∧
    (∀ i : Nat, ∀ e : ProgressEvent,
      (processCompanies token beh cs sched)[i]? = some e → e.completed = e.total →
      (processCompanies token beh cs sched).length ≤ i + 2) := by
  constructor
  · simp only [processCompanies]
    rw [List.chain'_append]
    refine ⟨runWindows_chain _ _ _ _ _ _, by simp, ?_⟩
    intro x hx y hy
    have hxm := List.mem_of_mem_getLast? hx
    have hxb := (runWindows_mem (createOctokit token beh) cs.length sched
      (chunk5 cs) 0 0 x hxm).2.2.2.2
    rw [chunk5_flatten] at hxb
    have hy2 : y = doneEvent cs.length := by simpa using List.mem_of_mem_head? hy
    subst hy2
    have hdc : completedOf (doneEvent cs.length) = cs.length := by
      simp [completedOf, doneEvent]
    omega
  · intro i e hie hct
    by_cases hcs : cs = []
    · subst hcs
      simp only [processCompanies, chunk5, runWindows, List.nil_append, List.length_singleton,
        List.length_nil]
      omega
    · have hchunks_ne : chunk5 cs ≠ [] := chunk5_ne_nil cs hcs
      obtain ⟨pre, lastE, h1, h2, h3⟩ :=
        runWindows_last (createOctokit token beh) cs.length sched (chunk5 cs) 0 0
          hchunks_ne (chunk5_mem_ne_nil cs)
      rw [chunk5_flatten] at h2 h3
      have heq : processCompanies token beh cs sched = pre ++ [lastE, doneEvent cs.length] := by
        show runWindows (createOctokit token beh) cs.length sched (chunk5 cs) 0 0 ++
          [doneEvent cs.length] = pre ++ [lastE, doneEvent cs.length]
        rw [h1, List.append_assoc]
        rfl
      rw [heq] at hie ⊢
      by_cases hi : i < pre.length
      · exfalso
        rw [List.getElem?_append_left hi] at hie
        have hmem : e ∈ pre := List.getElem?_mem hie
        have hlt := h3 e hmem
        have hhm : e ∈ runWindows (createOctokit token beh) cs.length sched (chunk5 cs) 0 0 := by
          rw [h1]
          exact List.mem_append.mpr (Or.inl hmem)
        obtain ⟨_, htot, hcompl, _, _⟩ := runWindows_mem (createOctokit token beh) cs.length
          sched (chunk5 cs) 0 0 e hhm
        rw [hcompl, htot] at hct
        simp only [Option.some.injEq] at hct
        omega
      · simp only [List.length_append, List.length_cons, List.length_nil]
        omega

def csA : List CompanyInput := [⟨"A", "x"⟩]

def evA : ProgressEvent :=
  terminalEvent ⟨"A", "x"⟩ (analyzeCompany ⟨"t", behEmpty⟩ ⟨"A", "x"⟩).2 1 1

/-- C7 (counterexample): in a one-company run the final `error` event (at
position 1 of 3) carries `completed = total = 1` yet is not the `done`
event, so "completed reaches total only at done" is false as stated. -/
theorem claim_C7_counterexample :
    (processCompanies "t" behEmpty csA schedSwap)[1]? = some evA ∧
    evA.completed = evA.total ∧
    evA.type ≠ EventType.done ∧
    (processCompanies "t" behEmpty csA schedSwap).length = 3 := by
  refine ⟨by decide, by decide, by decide, by decide⟩

/-- C7 (witness): the amended theorem applied at a concrete one-company
run, discharging the index-and-equality hypotheses at position 1. -/
theorem claim_C7_witness :
    List.Chain' (fun a b => completedOf a ≤ completedOf b)
      (processCompanies "t" behEmpty csA schedSwap) ∧
    (processCompanies "t" behEmpty csA schedSwap).length ≤ 1 + 2 :=
  ⟨(claim_C7_amended "t" behEmpty csA schedSwap).1,
   (claim_C7_amended "t" behEmpty csA schedSwap).2 1 evA (by decide) (by decide)⟩
